import Mathlib

/-!
Verification of the in-memory FIFO task queue of the repository
(`server/queue/fifo.go`).  The Go code is shallowly embedded: the queue
state is a structure, each exported method becomes a pure function from
state to state (plus its returned values), and the fire-and-forget
dispatcher invocation (`go q.process()`) is modelled as a separate
transition, exactly as the claims enumerate it.  Go maps are modelled as
association lists that keep an iteration order; `delete` removes the
binding, map assignment replaces or appends it.  Pointer mutation that is
observable outside the state (setting `entry.error` and closing
`entry.done` on an entry that is simultaneously removed from `running`)
is modelled by returning the mutated entries alongside the new state.
Wall-clock time is an abstract `Nat`; `time.Now().After(d)` is `now > d`.
-/

namespace Woodpecker

/-- `model.StatusValue` of the Go model package (a string enumeration). -/
inductive StatusValue where
  | success
  | failure
  | killed
  | skipped
  | pend
  | run
  | declined
  | blocked
deriving DecidableEq, Repr

/-- A Go `error` value that is not nil: either the sentinel `ErrNotFound`
of the queue package or some other error carrying a message. -/
inductive GoError where
  | notFound
  | mk (msg : String)
deriving DecidableEq, Repr

/-- The part of `model.Task` the queue reads and writes: `ID`,
`AgentID`, `Dependencies` and `DepStatus`.  All other fields are opaque
to the queue (workers only see them through their filter predicate). -/
structure Task where
  id : String
  agentID : Int
  dependencies : List String
  depStatus : List (String × StatusValue)
deriving DecidableEq, Repr

/-- `entry` of fifo.go: the lease record for a running task.  The one-shot
`done` channel is modelled by the flag `doneClosed`. -/
structure Entry where
  item : Task
  doneClosed : Bool
  error : Option GoError
  deadline : Nat
deriving DecidableEq, Repr

/-- `worker` of fifo.go.  `wid` models the pointer identity of the Go
worker object (distinct `Poll` calls create distinct pointers); the
delivery channel and the stop handle live outside the queue state. -/
structure Worker where
  wid : Nat
  agentID : Int
  filter : Task → Bool

/-- `fifo` of fifo.go: the queue state guarded by the mutex.  `running`
is the Go map `map[string]*entry`, kept as an association list with an
iteration order; `workers` is the set `map[*worker]struct{}`. -/
structure FifoState where
  workers : List Worker
  running : List (String × Entry)
  pending : List Task
  waitingOnDeps : List Task
  extension : Nat
  paused : Bool

/-- Lookup in the `running` map (`q.running[id]`). -/
def lookupEntry (id : String) (m : List (String × Entry)) : Option Entry :=
  (m.find? (fun kv => kv.1 == id)).map (fun kv => kv.2)

/-- `delete(q.running, id)`: afterwards the key is absent. -/
def eraseEntry (id : String) (m : List (String × Entry)) : List (String × Entry) :=
  m.filter (fun kv => !(kv.1 == id))

/-- `q.running[id] = e`: replace the binding if present, else append. -/
def setEntry (id : String) (e : Entry) : List (String × Entry) → List (String × Entry)
  | [] => [(id, e)]
  | kv :: rest => if kv.1 == id then (id, e) :: rest else kv :: setEntry id e rest

/-- `task.DepStatus[dep] = status` on the `DepStatus` map. -/
def setStatus (id : String) (v : StatusValue) : List (String × StatusValue) → List (String × StatusValue)
  | [] => [(id, v)]
  | kv :: rest => if kv.1 == id then (id, v) :: rest else kv :: setStatus id v rest

/-- Read access to a `DepStatus` map. -/
def getStatus (id : String) (m : List (String × StatusValue)) : Option StatusValue :=
  (m.find? (fun kv => kv.1 == id)).map (fun kv => kv.2)

/-- `New` (fifo.go): the empty queue; the lease extension is ten minutes,
modelled as 600 abstract time units. -/
def newQueue : FifoState :=
  { workers := []
    running := []
    pending := []
    waitingOnDeps := []
    extension := 600
    paused := false }

/-- `Push` (fifo.go): append the task to the tail of `pending`.  The
`go q.process()` it fires is a separate transition.  The Go method
always returns nil. -/
def push (task : Task) (s : FifoState) : FifoState :=
  { s with pending := s.pending ++ [task] }

/-- `PushAtOnce` (fifo.go): append each task of the batch in order. -/
def pushAtOnce (tasks : List Task) (s : FifoState) : FifoState :=
  { s with pending := s.pending ++ tasks }

/-- The synchronous part of `Poll` (fifo.go): insert the fresh worker
into the `workers` set.  The blocking phase is `pollResolve` below. -/
def pollRegister (w : Worker) (s : FifoState) : FifoState :=
  { s with workers := s.workers ++ [w] }

/-- `delete(q.workers, w)`: remove the worker object (by identity). -/
def removeWorker (wid : Nat) (ws : List Worker) : List Worker :=
  ws.filter (fun w => !(w.wid == wid))

/-- What the blocked phase of `Poll` observes: either the caller context
is cancelled, or the dispatcher sends a task on the delivery channel. -/
inductive PollEvent where
  | ctxCancelled (ctxErr : GoError)
  | delivered (t : Task)

/-- The blocked phase of `Poll` (fifo.go lines 101-111): on context
cancellation the worker is deleted from `workers` and `ctx.Err()` is
returned; on delivery the task is returned with nil error. -/
def pollResolve (s : FifoState) (w : Worker) : PollEvent → FifoState × Option Task × Option GoError
  | PollEvent.ctxCancelled ctxErr => ({ s with workers := removeWorker w.wid s.workers }, none, some ctxErr)
  | PollEvent.delivered t => (s, some t, none)

/-- `updateDepStatusInQueue` acting on one task: for each dependency
equal to the finished id, write the status into `DepStatus` at that
key.  Net effect: if the finished id occurs among the dependencies, set
`DepStatus[id]`; otherwise leave the task alone. -/
def updateTaskDep (taskID : String) (status : StatusValue) (t : Task) : Task :=
  if t.dependencies.any (fun dep => taskID == dep) then
    { t with depStatus := setStatus taskID status t.depStatus }
  else t

/-- `updateDepStatusInQueue` (fifo.go): propagate the finished status of
`taskID` into the `DepStatus` of every task in `pending`, `running` and
`waitingOnDeps` that lists `taskID` among its dependencies. -/
def updateDepStatusInQueue (taskID : String) (status : StatusValue) (s : FifoState) : FifoState :=
  { s with
    pending := s.pending.map (updateTaskDep taskID status)
    running := s.running.map (fun kv => (kv.1, { kv.2 with item := updateTaskDep taskID status kv.2.item }))
    waitingOnDeps := s.waitingOnDeps.map (updateTaskDep taskID status) }

/-- `removeFromPending` (fifo.go): walk `pending` front to back and
remove the first task whose id matches, if any. -/
def removeFromPending (taskID : String) : List Task → List Task
  | [] => []
  | t :: ts => if t.id == taskID then ts else t :: removeFromPending taskID ts

/-- The body of the loop of `finished` (fifo.go lines 132-142) for one
id.  If the id is running: set the error on the entry, close its done
channel, delete it from `running` (the mutated entry is returned, since
waiters still hold a pointer to it).  Otherwise try to remove the id
from `pending`.  Either way, propagate the status to dependants. -/
def finishedStep (exitStatus : StatusValue) (err : Option GoError) (s : FifoState) (id : String) :
    FifoState × Option Entry :=
  match lookupEntry id s.running with
  | some e =>
    let e2 := { e with error := err, doneClosed := true }
    (updateDepStatusInQueue id exitStatus { s with running := eraseEntry id s.running }, some e2)
  | none =>
    (updateDepStatusInQueue id exitStatus { s with pending := removeFromPending id s.pending }, none)

/-- The loop of `finished` over the id list, accumulating the closed
entries. -/
def finishedRun (exitStatus : StatusValue) (err : Option GoError) :
    List String → FifoState → FifoState × List Entry
  | [], s => (s, [])
  | id :: rest, s =>
    let r := finishedStep exitStatus err s id
    let rec2 := finishedRun exitStatus err rest r.1
    (rec2.1, r.2.toList ++ rec2.2)

/-- `finished` (fifo.go): process each id in order and return nil
(the Go function ends with `return nil` unconditionally).  The middle
component collects the entries whose done channel was closed. -/
def finished (ids : List String) (exitStatus : StatusValue) (err : Option GoError) (s : FifoState) :
    FifoState × List Entry × Option GoError :=
  let r := finishedRun exitStatus err ids s
  (r.1, r.2, none)

/-- `Done` (fifo.go): `finished([id], exitStatus, nil)`. -/
def doneOp (id : String) (exitStatus : StatusValue) (s : FifoState) : FifoState × List Entry × Option GoError :=
  finished [id] exitStatus none s

/-- `Error` (fifo.go): `finished([id], StatusFailure, err)`. -/
def errorOp (id : String) (err : Option GoError) (s : FifoState) : FifoState × List Entry × Option GoError :=
  finished [id] StatusValue.failure err s

/-- `ErrorAtOnce` (fifo.go): `finished(ids, StatusFailure, err)`. -/
def errorAtOnce (ids : List String) (err : Option GoError) (s : FifoState) : FifoState × List Entry × Option GoError :=
  finished ids StatusValue.failure err s

/-- The inner loop of `EvictAtOnce` for one id: scan `pending` front to
back; on the first task whose id matches, remove it and report success
with the remaining list.  `none` means no match. -/
def removeFirstById (id : String) : List Task → Option (List Task)
  | [] => none
  | t :: ts =>
    if t.id == id then some ts
    else (removeFirstById id ts).map (fun ts2 => t :: ts2)

/-- `EvictAtOnce` (fifo.go): try the ids in order; the first id that
matches a pending task removes that task and the call returns nil at
once; if no id matches the call returns `ErrNotFound`.  `running` and
`waitingOnDeps` are never touched. -/
def evictAtOnce (ids : List String) (s : FifoState) : FifoState × Option GoError :=
  match ids with
  | [] => (s, some GoError.notFound)
  | id :: rest =>
    match removeFirstById id s.pending with
    | some p2 => ({ s with pending := p2 }, none)
    | none => evictAtOnce rest s

/-- `Evict` (fifo.go): `EvictAtOnce([id])`. -/
def evict (id : String) (s : FifoState) : FifoState × Option GoError :=
  evictAtOnce [id] s

/-- The outcome of a `Wait` call at the moment it inspects the state:
either it returns at once with a value, or it blocks on the done
channel of a running entry. -/
inductive WaitOutcome where
  | immediate (res : Option GoError)
  | blocks (e : Entry)
deriving DecidableEq, Repr

/-- `Wait` (fifo.go): look up `q.running[id]`.  If absent, return nil
immediately.  If present with its done channel already closed, the
select fires at once and returns the stored error.  Otherwise the call
blocks (resolved by `waitResolve`). -/
def waitCall (s : FifoState) (id : String) : WaitOutcome :=
  match lookupEntry id s.running with
  | none => WaitOutcome.immediate none
  | some e => if e.doneClosed then WaitOutcome.immediate e.error else WaitOutcome.blocks e

/-- What a blocked `Wait` observes: context cancellation or the closing
of the done channel of the entry it holds. -/
inductive WaitEvent where
  | ctxCancelled (ctxErr : GoError)
  | entryDone

/-- The blocked phase of `Wait` (fifo.go lines 177-184): if the done
channel closes, return the stored error; if the context is cancelled,
the select case has no return statement and control falls through to
the final `return nil`. -/
def waitResolve (e : Entry) : WaitEvent → Option GoError
  | WaitEvent.ctxCancelled _ => none
  | WaitEvent.entryDone => e.error

/-- `Extend` (fifo.go): if the id is running, set the deadline of its
entry to now plus the extension and return nil; else `ErrNotFound`. -/
def extendOp (now : Nat) (id : String) (s : FifoState) : FifoState × Option GoError :=
  match lookupEntry id s.running with
  | some _ =>
    ({ s with running := s.running.map (fun kv =>
        if kv.1 == id then (kv.1, { kv.2 with deadline := now + s.extension }) else kv) }, none)
  | none => (s, some GoError.notFound)

/-- `Pause` (fifo.go): set the paused flag. -/
def pause (s : FifoState) : FifoState :=
  { s with paused := true }

/-- `Resume` (fifo.go): clear the paused flag.  The `go q.process()` it
fires is a separate transition. -/
def resume (s : FifoState) : FifoState :=
  { s with paused := false }

/-- `KickAgentWorkers` (fifo.go): cancel and delete every worker of the
given agent. -/
def kickAgentWorkers (agentID : Int) (s : FifoState) : FifoState :=
  { s with workers := s.workers.filter (fun w => !(w.agentID == agentID)) }

/-- The loop of `resubmitExpiredPipelines` over the `running` map:
for each entry whose deadline lies strictly before now, push its task
to the front of `pending`, drop the binding, and close the done channel
(the closed entries are collected; their `error` field is untouched). -/
def sweepRunning (now : Nat) : List (String × Entry) → List Task → List (String × Entry) × List Task × List Entry
  | [], pend => ([], pend, [])
  | kv :: rest, pend =>
    if now > kv.2.deadline then
      let r := sweepRunning now rest (kv.2.item :: pend)
      (r.1, r.2.1, { kv.2 with doneClosed := true } :: r.2.2)
    else
      let r := sweepRunning now rest pend
      (kv :: r.1, r.2.1, r.2.2)

/-- `resubmitExpiredPipelines` (fifo.go). -/
def resubmitExpiredPipelines (now : Nat) (s : FifoState) : FifoState × List Entry :=
  let r := sweepRunning now s.running s.pending
  ({ s with running := r.1, pending := r.2.1 }, r.2.2)

/-- `depsInQueue` (fifo.go): true iff some dependency of the task occurs
as the id of a task in `pending` or as a key of `running`.  The scan
does not exclude the task itself. -/
def depsInQueue (pending : List Task) (running : List (String × Entry)) (t : Task) : Bool :=
  pending.any (fun p => t.dependencies.any (fun dep => p.id == dep)) ||
  running.any (fun kv => t.dependencies.any (fun dep => kv.1 == dep))

/-- `filterWaiting` (fifo.go): first move every waiting task to the back
of `pending`; then walk that list and move each task with a dependency
still in queue into the rebuilt `waitingOnDeps` (the gating test runs
against the full moved list, removals happen after the walk). -/
def filterWaiting (s : FifoState) : FifoState :=
  let pend := s.pending ++ s.waitingOnDeps
  { s with
    pending := pend.filter (fun t => !(depsInQueue pend s.running t))
    waitingOnDeps := pend.filter (fun t => depsInQueue pend s.running t) }

/-- `assignToWorker` (fifo.go): walk `pending` in order; for the first
task accepted by some worker, return the list with that task removed,
the task, and the worker. -/
def assignToWorker (ws : List Worker) : List Task → Option (List Task × Task × Worker)
  | [] => none
  | t :: ts =>
    match ws.find? (fun w => w.filter t) with
    | some w => some (ts, t, w)
    | none => (assignToWorker ws ts).map (fun r => (t :: r.1, r.2.1, r.2.2))

/-- The matching loop of `process` (fifo.go lines 266-277), with fuel.
Each successful match sets the agent on the task, deletes the worker,
moves the task from `pending` into `running` with a fresh lease, and
sends the task on the delivery channel of the worker (recorded as a
pair of worker identity and task).  The loop runs at most one round per
registered worker, so fuel `s.workers.length` is exact. -/
def matchLoopF (now : Nat) : Nat → FifoState → List (Nat × Task) → FifoState × List (Nat × Task)
  | 0, s, acc => (s, acc)
  | fuel + 1, s, acc =>
    match assignToWorker s.workers s.pending with
    | none => (s, acc)
    | some r =>
      let t2 := { r.2.1 with agentID := r.2.2.agentID }
      let s2 : FifoState :=
        { s with
          workers := removeWorker r.2.2.wid s.workers
          pending := r.1
          running := setEntry t2.id { item := t2, doneClosed := false, error := none, deadline := now + s.extension } s.running }
      matchLoopF now fuel s2 (acc ++ [(r.2.2.wid, t2)])

/-- `process` (fifo.go): a dispatcher pass.  If the queue is paused the
function returns immediately; otherwise it sweeps expired leases,
refilters the waiting list, and matches pending tasks to workers.  The
second component lists the deliveries made by the pass. -/
def process (now : Nat) (s : FifoState) : FifoState × List (Nat × Task) :=
  if s.paused then (s, [])
  else
    let s1 := (resubmitExpiredPipelines now s).1
    let s2 := filterWaiting s1
    matchLoopF now s2.workers.length s2 []

/-! ## Transition system

One event per public operation of the queue, plus the asynchronous
dispatcher pass (`go q.process()`), exactly the event list of the
claims.  Each event acts by the synchronous locked section of the Go
method. -/

inductive QEvent where
  | pushEv (t : Task)
  | pushAtOnceEv (ts : List Task)
  | pollEv (w : Worker)
  | doneEv (id : String) (st : StatusValue)
  | errorEv (id : String) (e : Option GoError)
  | errorAtOnceEv (ids : List String) (e : Option GoError)
  | evictEv (id : String)
  | evictAtOnceEv (ids : List String)
  | extendEv (now : Nat) (id : String)
  | pauseEv
  | resumeEv
  | kickEv (agentID : Int)
  | processEv (now : Nat)

/-- The state transformation of one event. -/
def stepEv : QEvent → FifoState → FifoState
  | QEvent.pushEv t, s => push t s
  | QEvent.pushAtOnceEv ts, s => pushAtOnce ts s
  | QEvent.pollEv w, s => pollRegister w s
  | QEvent.doneEv id st, s => (doneOp id st s).1
  | QEvent.errorEv id e, s => (errorOp id e s).1
  | QEvent.errorAtOnceEv ids e, s => (errorAtOnce ids e s).1
  | QEvent.evictEv id, s => (evict id s).1
  | QEvent.evictAtOnceEv ids, s => (evictAtOnce ids s).1
  | QEvent.extendEv now id, s => (extendOp now id s).1
  | QEvent.pauseEv, s => pause s
  | QEvent.resumeEv, s => resume s
  | QEvent.kickEv a, s => kickAgentWorkers a s
  | QEvent.processEv now, s => (process now s).1

/-- Run a whole trace of events from the empty queue of `New`. -/
def execTrace (evs : List QEvent) : FifoState :=
  evs.foldl (fun s e => stepEv e s) newQueue

/-- The ids on the `pending` list. -/
def pendingIds (s : FifoState) : List String := s.pending.map Task.id

/-- The ids on the `waitingOnDeps` list. -/
def waitingIds (s : FifoState) : List String := s.waitingOnDeps.map Task.id

/-- The keys of the `running` map. -/
def runningIds (s : FifoState) : List String := s.running.map Prod.fst

/-- All ids across the three task homes, with multiplicity. -/
def allIds (s : FifoState) : List String :=
  pendingIds s ++ waitingIds s ++ runningIds s

/-- Every binding of the `running` map is keyed by the id of the task it
holds (the code only writes `q.running[task.ID] = entry{item: task, ...}`). -/
def RunningKeyed (s : FifoState) : Prop :=
  ∀ kv ∈ s.running, kv.2.item.id = kv.1

/-- The inductive invariant: all ids across the three homes are distinct
(so no id lives in two homes, and no home holds an id twice), and the
running map is keyed by item id. -/
def QueueInv (s : FifoState) : Prop :=
  (allIds s).Nodup ∧ RunningKeyed s

/-- The claim property itself: no task id appears in more than one of
`pending`, `waitingOnDeps` and `running`. -/
def NoDoubleHome (s : FifoState) : Prop :=
  (pendingIds s).Disjoint (waitingIds s) ∧
  (pendingIds s).Disjoint (runningIds s) ∧
  (waitingIds s).Disjoint (runningIds s)

/-- Freshness side condition on pushes: a pushed task id is not currently
present anywhere in the queue, and a batch has pairwise distinct ids.
All other events are unconstrained. -/
def GoodEvent : QEvent → FifoState → Prop
  | QEvent.pushEv t, s => t.id ∉ allIds s
  | QEvent.pushAtOnceEv ts, s => (ts.map Task.id).Nodup ∧ ∀ t ∈ ts, t.id ∉ allIds s
  | _, _ => True

/-- States reachable from the empty queue by event sequences whose
pushes satisfy the freshness side condition. -/
inductive ReachableFresh : FifoState → Prop where
  | init : ReachableFresh newQueue
  | next : ∀ {s : FifoState} {e : QEvent}, ReachableFresh s → GoodEvent e s →
      ReachableFresh (stepEv e s)

/-! ## Concrete instances used by closed theorems -/

/-- A dependency-free task with id a. -/
def taskA : Task := { id := String.singleton (Char.ofNat 97), agentID := 0, dependencies := [], depStatus := [] }

/-- The id of `taskA`. -/
def idA : String := taskA.id

/-- An accept-all worker of agent 1. -/
def worker1 : Worker := { wid := 0, agentID := 1, filter := fun _ => true }

/-- The id b. -/
def idB : String := String.singleton (Char.ofNat 98)

/-- A dependency-free task with id b. -/
def taskB : Task := { id := idB, agentID := 0, dependencies := [], depStatus := [] }

/-- A second task object carrying the same id as `taskB`. -/
def taskBdup : Task := { taskB with agentID := 7 }

/-- An id (x) matching no task below. -/
def idX : String := String.singleton (Char.ofNat 120)

/-- A sample non-nil Go error. -/
def errBoom : GoError := GoError.mk idX

/-- A sample context-cancellation error. -/
def ctxErrC : GoError := GoError.mk (String.singleton (Char.ofNat 99))

/-- A lease entry for `taskA` whose deadline (0) is already past. -/
def entryA : Entry := { item := taskA, doneClosed := false, error := none, deadline := 0 }

/-- A lease entry for `taskB` with a deadline (10) still ahead. -/
def entryB : Entry := { item := taskB, doneClosed := false, error := none, deadline := 10 }

/-- A paused queue holding one expired running entry. -/
def pausedState : FifoState :=
  { workers := [], running := [(idA, entryA)], pending := [], waitingOnDeps := [],
    extension := 600, paused := true }

/-- A queue with one expired and one live running entry. -/
def sweepState : FifoState :=
  { workers := [], running := [(idA, entryA), (idB, entryB)], pending := [],
    waitingOnDeps := [], extension := 600, paused := false }

/-- A task with id b depending on id a. -/
def taskDepB : Task := { id := idB, agentID := 0, dependencies := [idA], depStatus := [] }

/-- A queue with task a running and a dependant of a pending. -/
def runState : FifoState :=
  { workers := [], running := [(idA, entryA)], pending := [taskDepB], waitingOnDeps := [],
    extension := 600, paused := false }

/-- A task listing its own id as its only dependency. -/
def taskSelf : Task := { id := idA, agentID := 0, dependencies := [idA], depStatus := [] }

/-- A queue whose only pending task is the self-dependent `taskSelf`. -/
def selfState : FifoState :=
  { workers := [], running := [], pending := [taskSelf], waitingOnDeps := [],
    extension := 600, paused := false }

/-- The state after Push(a), Poll and one dispatcher pass: a is running. -/
def s2cex : FifoState :=
  execTrace [QEvent.pushEv taskA, QEvent.pollEv worker1, QEvent.processEv 0]

/-- A queue with three pending tasks, two of them sharing id b. -/
def evictState : FifoState :=
  { workers := [], running := [], pending := [taskA, taskB, taskBdup], waitingOnDeps := [],
    extension := 600, paused := false }

/-- A queue whose waiting list holds task a and a dependant of a. -/
def waitState : FifoState :=
  { workers := [], running := [], pending := [], waitingOnDeps := [taskA, taskDepB],
    extension := 600, paused := false }

/-! ## Theorems -/

theorem updateTaskDep_id (i : String) (st : StatusValue) (t : Task) :
    (updateTaskDep i st t).id = t.id := by
  unfold updateTaskDep; split <;> rfl

theorem map_id_updateTaskDep (i : String) (st : StatusValue) (l : List Task) :
    (l.map (updateTaskDep i st)).map Task.id = l.map Task.id := by
  induction l with
  | nil => rfl
  | cons t ts ih => simp [updateTaskDep_id, ih]

theorem pendingIds_updateDep (i : String) (st : StatusValue) (s : FifoState) :
    pendingIds (updateDepStatusInQueue i st s) = pendingIds s := by
  simp [pendingIds, updateDepStatusInQueue, updateTaskDep_id]

theorem waitingIds_updateDep (i : String) (st : StatusValue) (s : FifoState) :
    waitingIds (updateDepStatusInQueue i st s) = waitingIds s := by
  simp [waitingIds, updateDepStatusInQueue, updateTaskDep_id]

theorem map_fst_entrymap (f : String × Entry → Entry) (m : List (String × Entry)) :
    (m.map (fun kv => (kv.1, f kv))).map Prod.fst = m.map Prod.fst := by
  induction m with
  | nil => rfl
  | cons kv rest ih => simp [ih]

theorem runningIds_updateDep (i : String) (st : StatusValue) (s : FifoState) :
    runningIds (updateDepStatusInQueue i st s) = runningIds s := by
  simp only [runningIds, updateDepStatusInQueue]
  exact map_fst_entrymap _ s.running

theorem allIds_updateDep (i : String) (st : StatusValue) (s : FifoState) :
    allIds (updateDepStatusInQueue i st s) = allIds s := by
  simp [allIds, pendingIds_updateDep, waitingIds_updateDep, runningIds_updateDep]

theorem runningKeyed_updateDep (i : String) (st : StatusValue) (s : FifoState)
    (h : RunningKeyed s) : RunningKeyed (updateDepStatusInQueue i st s) := by
  intro kv hkv
  simp only [updateDepStatusInQueue, List.mem_map] at hkv
  obtain ⟨kv0, h0, rfl⟩ := hkv
  simpa [updateTaskDep_id] using h kv0 h0

theorem removeFromPending_sublist (id : String) (l : List Task) :
    List.Sublist (removeFromPending id l) l := by
  induction l with
  | nil => simp [removeFromPending]
  | cons t ts ih =>
    simp only [removeFromPending]
    split
    · exact List.sublist_cons_self t ts
    · exact ih.cons₂ t

theorem removeFirstById_sublist (id : String) (l l2 : List Task)
    (h : removeFirstById id l = some l2) : List.Sublist l2 l := by
  induction l generalizing l2 with
  | nil => simp [removeFirstById] at h
  | cons t ts ih =>
    simp only [removeFirstById] at h
    split at h
    · cases h; exact List.sublist_cons_self t ts
    · cases hrec : removeFirstById id ts with
      | none => rw [hrec] at h; simp at h
      | some ts2 =>
        rw [hrec] at h
        cases h
        exact (ih ts2 hrec).cons₂ t

theorem eraseEntry_sublist (id : String) (m : List (String × Entry)) :
    List.Sublist (eraseEntry id m) m :=
  List.filter_sublist m

theorem nodup_sub_pending {p p2 w r : List String} (hs : List.Sublist p2 p)
    (h : (p ++ w ++ r).Nodup) : (p2 ++ w ++ r).Nodup :=
  h.sublist ((hs.append_right w).append_right r)

theorem nodup_sub_running {p w r r2 : List String} (hs : List.Sublist r2 r)
    (h : (p ++ w ++ r).Nodup) : (p ++ w ++ r2).Nodup :=
  h.sublist (hs.append_left (p ++ w))

theorem finishedStep_some (st : StatusValue) (err : Option GoError) (s : FifoState)
    (id : String) (e : Entry) (hle : lookupEntry id s.running = some e) :
    finishedStep st err s id =
      (updateDepStatusInQueue id st { s with running := eraseEntry id s.running },
       some { e with error := err, doneClosed := true }) := by
  unfold finishedStep; rw [hle]

theorem finishedStep_none (st : StatusValue) (err : Option GoError) (s : FifoState)
    (id : String) (hle : lookupEntry id s.running = none) :
    finishedStep st err s id =
      (updateDepStatusInQueue id st { s with pending := removeFromPending id s.pending },
       none) := by
  unfold finishedStep; rw [hle]

theorem queueInv_finishedStep (st : StatusValue) (err : Option GoError) (s : FifoState)
    (id : String) (h : QueueInv s) : QueueInv (finishedStep st err s id).1 := by
  obtain ⟨hn, hk⟩ := h
  cases hle : lookupEntry id s.running with
  | some e =>
    rw [finishedStep_some st err s id e hle]
    constructor
    · have h1 : allIds (updateDepStatusInQueue id st { s with running := eraseEntry id s.running }) =
          pendingIds s ++ waitingIds s ++ (eraseEntry id s.running).map Prod.fst := by
        rw [allIds_updateDep]; rfl
      rw [h1]
      exact nodup_sub_running ((eraseEntry_sublist id s.running).map Prod.fst) hn
    · apply runningKeyed_updateDep
      intro kv hkv
      exact hk kv (List.mem_of_mem_filter hkv)
  | none =>
    rw [finishedStep_none st err s id hle]
    constructor
    · have h1 : allIds (updateDepStatusInQueue id st { s with pending := removeFromPending id s.pending }) =
          (removeFromPending id s.pending).map Task.id ++ waitingIds s ++ runningIds s := by
        rw [allIds_updateDep]; rfl
      rw [h1]
      exact nodup_sub_pending ((removeFromPending_sublist id s.pending).map Task.id) hn
    · apply runningKeyed_updateDep
      exact hk

theorem queueInv_finishedRun (st : StatusValue) (err : Option GoError) (ids : List String)
    (s : FifoState) (h : QueueInv s) : QueueInv (finishedRun st err ids s).1 := by
  induction ids generalizing s with
  | nil => exact h
  | cons id rest ih =>
    simp only [finishedRun]
    exact ih (finishedStep st err s id).1 (queueInv_finishedStep st err s id h)

theorem queueInv_evictAtOnce (ids : List String) (s : FifoState) (h : QueueInv s) :
    QueueInv (evictAtOnce ids s).1 := by
  induction ids with
  | nil => exact h
  | cons id rest ih =>
    simp only [evictAtOnce]
    cases hrem : removeFirstById id s.pending with
    | some p2 =>
      obtain ⟨hn, hk⟩ := h
      refine ⟨?_, hk⟩
      have hn0 : (pendingIds s ++ waitingIds s ++ runningIds s).Nodup := hn
      exact nodup_sub_pending ((removeFirstById_sublist id s.pending p2 hrem).map Task.id) hn0
    | none => exact ih

theorem map_fst_extend (id : String) (d : Nat) (m : List (String × Entry)) :
    (m.map (fun kv => if kv.1 == id then (kv.1, { kv.2 with deadline := d }) else kv)).map Prod.fst
      = m.map Prod.fst := by
  induction m with
  | nil => rfl
  | cons kv rest ih =>
    simp only [List.map_cons, ih]
    by_cases hc : kv.1 == id
    · simp [hc]
    · simp [hc]

theorem keyed_extend (id : String) (d : Nat) (m : List (String × Entry))
    (hk : ∀ kv ∈ m, kv.2.item.id = kv.1) :
    ∀ kv ∈ m.map (fun kv => if kv.1 == id then (kv.1, { kv.2 with deadline := d }) else kv),
      kv.2.item.id = kv.1 := by
  intro kv hkv
  simp only [List.mem_map] at hkv
  obtain ⟨kv0, h0, rfl⟩ := hkv
  by_cases hc : kv0.1 == id
  · simpa [hc] using hk kv0 h0
  · simpa [hc] using hk kv0 h0

theorem queueInv_extendOp (now : Nat) (id : String) (s : FifoState) (h : QueueInv s) :
    QueueInv (extendOp now id s).1 := by
  obtain ⟨hn, hk⟩ := h
  unfold extendOp
  cases lookupEntry id s.running with
  | none => exact ⟨hn, hk⟩
  | some e =>
    constructor
    · simp only [allIds, runningIds, pendingIds, waitingIds]
      rw [map_fst_extend]
      exact hn
    · exact keyed_extend id (now + s.extension) s.running hk

theorem queueInv_push (t : Task) (s : FifoState) (hfresh : t.id ∉ allIds s)
    (h : QueueInv s) : QueueInv (push t s) := by
  obtain ⟨hn, hk⟩ := h
  refine ⟨?_, hk⟩
  have hperm : List.Perm (allIds (push t s)) (t.id :: allIds s) := by
    have h1 : allIds (push t s) = pendingIds s ++ Task.id t :: (waitingIds s ++ runningIds s) := by
      simp [allIds, pendingIds, waitingIds, runningIds, push, List.append_assoc]
    rw [h1]
    have h2 : List.Perm (pendingIds s ++ Task.id t :: (waitingIds s ++ runningIds s))
        (Task.id t :: (pendingIds s ++ (waitingIds s ++ runningIds s))) := List.perm_middle
    refine h2.trans ?_
    have h3 : pendingIds s ++ (waitingIds s ++ runningIds s) = allIds s := by
      simp [allIds, List.append_assoc]
    rw [h3]
  exact hperm.nodup_iff.mpr (List.nodup_cons.mpr ⟨hfresh, hn⟩)

theorem queueInv_pushAtOnce (ts : List Task) (s : FifoState)
    (hdistinct : (ts.map Task.id).Nodup) (hfresh : ∀ t ∈ ts, t.id ∉ allIds s)
    (h : QueueInv s) : QueueInv (pushAtOnce ts s) := by
  obtain ⟨hn, hk⟩ := h
  refine ⟨?_, hk⟩
  have hperm : List.Perm (allIds (pushAtOnce ts s)) (allIds s ++ ts.map Task.id) := by
    have h1 : allIds (pushAtOnce ts s) =
        pendingIds s ++ (ts.map Task.id ++ (waitingIds s ++ runningIds s)) := by
      simp [allIds, pendingIds, waitingIds, runningIds, pushAtOnce, List.append_assoc]
    have h2 : allIds s ++ ts.map Task.id =
        pendingIds s ++ ((waitingIds s ++ runningIds s) ++ ts.map Task.id) := by
      simp [allIds, List.append_assoc]
    rw [h1, h2]
    have hcomm : List.Perm (ts.map Task.id ++ (waitingIds s ++ runningIds s))
        ((waitingIds s ++ runningIds s) ++ ts.map Task.id) := List.perm_append_comm
    exact hcomm.append_left (pendingIds s)
  refine hperm.nodup_iff.mpr (List.nodup_append.mpr ⟨hn, hdistinct, ?_⟩)
  intro a ha hb
  simp only [List.mem_map] at hb
  obtain ⟨t, ht, rfl⟩ := hb
  exact hfresh t ht ha

theorem sweepRunning_fst (now : Nat) : ∀ (run : List (String × Entry)) (pend : List Task),
    (sweepRunning now run pend).1 = run.filter (fun kv => !(decide (now > kv.2.deadline))) := by
  intro run
  induction run with
  | nil => intro pend; rfl
  | cons kv rest ih =>
    intro pend
    simp only [sweepRunning]
    by_cases hc : now > kv.2.deadline
    · simp [hc, ih]
    · simp [hc, ih]

theorem sweepRunning_pending (now : Nat) : ∀ (run : List (String × Entry)) (pend : List Task),
    (sweepRunning now run pend).2.1 =
      ((run.filter (fun kv => decide (now > kv.2.deadline))).map (fun kv => kv.2.item)).reverse
        ++ pend := by
  intro run
  induction run with
  | nil => intro pend; rfl
  | cons kv rest ih =>
    intro pend
    simp only [sweepRunning]
    by_cases hc : now > kv.2.deadline
    · simp [hc, ih, List.append_assoc]
    · simp [hc, ih]

theorem sweepRunning_closed (now : Nat) : ∀ (run : List (String × Entry)) (pend : List Task),
    (sweepRunning now run pend).2.2 =
      (run.filter (fun kv => decide (now > kv.2.deadline))).map
        (fun kv => { kv.2 with doneClosed := true }) := by
  intro run
  induction run with
  | nil => intro pend; rfl
  | cons kv rest ih =>
    intro pend
    simp only [sweepRunning]
    by_cases hc : now > kv.2.deadline
    · simp [hc, ih]
    · simp [hc, ih]

theorem sweep_ids_perm (now : Nat) : ∀ (run : List (String × Entry)) (pend : List Task),
    (∀ kv ∈ run, kv.2.item.id = kv.1) →
    List.Perm ((sweepRunning now run pend).2.1.map Task.id
                ++ (sweepRunning now run pend).1.map Prod.fst)
              (pend.map Task.id ++ run.map Prod.fst) := by
  intro run
  induction run with
  | nil => intro pend _; simp [sweepRunning]
  | cons kv rest ih =>
    intro pend hkeyed
    have hkey : kv.2.item.id = kv.1 := hkeyed kv (List.mem_cons_self kv rest)
    have hrest : ∀ kv2 ∈ rest, kv2.2.item.id = kv2.1 :=
      fun kv2 h2 => hkeyed kv2 (List.mem_cons_of_mem kv h2)
    simp only [sweepRunning, List.map_cons]
    by_cases hc : now > kv.2.deadline
    · simp only [if_pos hc]
      have h1 := ih (kv.2.item :: pend) hrest
      simp only [List.map_cons, List.cons_append] at h1
      rw [hkey] at h1
      exact h1.trans List.perm_middle.symm
    · simp only [if_neg hc]
      exact List.perm_middle.trans (((ih pend hrest).cons kv.1).trans List.perm_middle.symm)

theorem perm_mid_insert {p2 r2 p w r : List String} (h : List.Perm (p2 ++ r2) (p ++ r)) :
    List.Perm (p2 ++ w ++ r2) (p ++ w ++ r) := by
  have s1 : List.Perm (p2 ++ w ++ r2) (w ++ p2 ++ r2) :=
    (List.perm_append_comm : List.Perm (p2 ++ w) (w ++ p2)).append_right r2
  have s2 : w ++ p2 ++ r2 = w ++ (p2 ++ r2) := List.append_assoc w p2 r2
  have s3 : List.Perm (w ++ (p2 ++ r2)) (w ++ (p ++ r)) := h.append_left w
  have s4 : w ++ (p ++ r) = w ++ p ++ r := (List.append_assoc w p r).symm
  have s5 : List.Perm (w ++ p ++ r) (p ++ w ++ r) :=
    (List.perm_append_comm : List.Perm (w ++ p) (p ++ w)).append_right r
  rw [s2] at s1
  exact ((s1.trans s3).trans (s4 ▸ List.Perm.refl (w ++ (p ++ r)))).trans s5

theorem queueInv_resubmit (now : Nat) (s : FifoState) (h : QueueInv s) :
    QueueInv (resubmitExpiredPipelines now s).1 := by
  obtain ⟨hn, hk⟩ := h
  constructor
  · have hperm := sweep_ids_perm now s.running s.pending hk
    have h1 : List.Perm (allIds (resubmitExpiredPipelines now s).1) (allIds s) := by
      have h2 : allIds (resubmitExpiredPipelines now s).1 =
          (sweepRunning now s.running s.pending).2.1.map Task.id ++ waitingIds s
            ++ (sweepRunning now s.running s.pending).1.map Prod.fst := rfl
      have h3 : allIds s = pendingIds s ++ waitingIds s ++ runningIds s := rfl
      rw [h2, h3]
      exact perm_mid_insert hperm
    exact h1.nodup_iff.mpr hn
  · intro kv hkv
    have hsub : kv ∈ s.running := by
      have h4 : (resubmitExpiredPipelines now s).1.running =
          s.running.filter (fun kv => !(decide (now > kv.2.deadline))) := by
        show (sweepRunning now s.running s.pending).1 = _
        exact sweepRunning_fst now s.running s.pending
      rw [h4] at hkv
      exact List.mem_of_mem_filter hkv
    exact hk kv hsub

theorem queueInv_filterWaiting (s : FifoState) (h : QueueInv s) :
    QueueInv (filterWaiting s) := by
  obtain ⟨hn, hk⟩ := h
  refine ⟨?_, hk⟩
  set L := s.pending ++ s.waitingOnDeps with hL
  set g := fun t => depsInQueue L s.running t with hg
  have h1 : allIds (filterWaiting s) =
      (L.filter (fun t => !(g t))).map Task.id ++ (L.filter g).map Task.id ++ runningIds s := rfl
  have h2 : List.Perm ((L.filter (fun t => !(g t))).map Task.id ++ (L.filter g).map Task.id)
      (pendingIds s ++ waitingIds s) := by
    have h3 : (L.filter (fun t => !(g t))).map Task.id ++ (L.filter g).map Task.id =
        (L.filter (fun t => !(g t)) ++ L.filter g).map Task.id := (List.map_append _ _ _).symm
    have h4 : List.Perm (L.filter (fun t => !(g t)) ++ L.filter g) L :=
      (List.perm_append_comm).trans (List.filter_append_perm g L)
    have h5 : L.map Task.id = pendingIds s ++ waitingIds s := List.map_append _ _ _
    rw [h3]
    exact h5 ▸ (h4.map Task.id)
  have h6 : List.Perm (allIds (filterWaiting s)) (allIds s) := by
    rw [h1]
    exact h2.append_right (runningIds s)
  exact h6.nodup_iff.mpr hn

theorem assignToWorker_perm (ws : List Worker) :
    ∀ (l : List Task) (r : List Task × Task × Worker), assignToWorker ws l = some r →
      List.Perm l (r.2.1 :: r.1) := by
  intro l
  induction l with
  | nil => intro r h; simp [assignToWorker] at h
  | cons t ts ih =>
    intro r h
    simp only [assignToWorker] at h
    cases hw : ws.find? (fun w => w.filter t) with
    | some w =>
      rw [hw] at h
      cases h
      exact List.Perm.refl _
    | none =>
      rw [hw] at h
      cases hrec : assignToWorker ws ts with
      | none => rw [hrec] at h; cases h
      | some r0 =>
        rw [hrec] at h
        cases h
        exact ((ih r0 hrec).cons t).trans (List.Perm.swap r0.2.1 t r0.1)

theorem setEntry_fresh (k : String) (e : Entry) :
    ∀ (m : List (String × Entry)), k ∉ m.map Prod.fst → setEntry k e m = m ++ [(k, e)] := by
  intro m
  induction m with
  | nil => intro _; rfl
  | cons kv rest ih =>
    intro hnot
    simp only [List.map_cons, List.mem_cons] at hnot
    push_neg at hnot
    simp only [setEntry]
    have hne : (kv.1 == k) = false := by
      simp only [beq_eq_false_iff_ne]
      exact fun hx => hnot.1 hx.symm
    rw [hne]
    simp only [List.cons_append]
    rw [ih hnot.2]
    simp

theorem queueInv_matchLoopF (now : Nat) :
    ∀ (fuel : Nat) (s : FifoState) (acc : List (Nat × Task)), QueueInv s →
      QueueInv (matchLoopF now fuel s acc).1 := by
  intro fuel
  induction fuel with
  | zero => intro s acc h; exact h
  | succ n ih =>
    intro s acc h
    simp only [matchLoopF]
    cases ha : assignToWorker s.workers s.pending with
    | none => exact h
    | some r =>
      apply ih
      obtain ⟨hn, hk⟩ := h
      have hperm : List.Perm s.pending (r.2.1 :: r.1) := assignToWorker_perm s.workers s.pending r ha
      have hpermIds : List.Perm (pendingIds s) (r.2.1.id :: r.1.map Task.id) := hperm.map Task.id
      have htmem : r.2.1.id ∈ pendingIds s :=
        hpermIds.mem_iff.mpr (List.mem_cons_self _ _)
      have hnotrun : r.2.1.id ∉ runningIds s := by
        intro hmem
        have hd : List.Disjoint (pendingIds s ++ waitingIds s) (runningIds s) := by
          have hn2 : ((pendingIds s ++ waitingIds s) ++ runningIds s).Nodup := hn
          exact List.disjoint_of_nodup_append hn2
        exact hd (List.mem_append_left _ htmem) hmem
      constructor
      · have hset : setEntry r.2.1.id
            { item := { r.2.1 with agentID := r.2.2.agentID }, doneClosed := false,
              error := none, deadline := now + s.extension } s.running =
            s.running ++ [(r.2.1.id,
              { item := { r.2.1 with agentID := r.2.2.agentID }, doneClosed := false,
                error := none, deadline := now + s.extension })] :=
          setEntry_fresh _ _ s.running hnotrun
      -- allIds of the new state, then a permutation back to allIds s
        have h1 : allIds { s with
            workers := removeWorker r.2.2.wid s.workers
            pending := r.1
            running := setEntry r.2.1.id
              { item := { r.2.1 with agentID := r.2.2.agentID }, doneClosed := false,
                error := none, deadline := now + s.extension } s.running } =
            r.1.map Task.id ++ waitingIds s ++ (runningIds s ++ [r.2.1.id]) := by
          show r.1.map Task.id ++ waitingIds s ++ (setEntry _ _ s.running).map Prod.fst = _
          rw [hset]
          simp [runningIds]
        rw [h1]
        have h2 : List.Perm (r.1.map Task.id ++ waitingIds s ++ (runningIds s ++ [r.2.1.id]))
            (r.2.1.id :: (r.1.map Task.id ++ waitingIds s ++ runningIds s)) := by
          have s1 : List.Perm (runningIds s ++ [r.2.1.id]) (r.2.1.id :: runningIds s) :=
            List.perm_append_singleton _ _
          have s2 : List.Perm (r.1.map Task.id ++ waitingIds s ++ (runningIds s ++ [r.2.1.id]))
              (r.1.map Task.id ++ waitingIds s ++ (r.2.1.id :: runningIds s)) :=
            s1.append_left _
          exact s2.trans List.perm_middle
        have h3 : List.Perm (allIds s)
            (r.2.1.id :: (r.1.map Task.id ++ waitingIds s ++ runningIds s)) := by
          have s4 : List.Perm (pendingIds s ++ waitingIds s)
              ((r.2.1.id :: r.1.map Task.id) ++ waitingIds s) := hpermIds.append_right _
          have s5 : List.Perm (allIds s)
              ((r.2.1.id :: r.1.map Task.id) ++ waitingIds s ++ runningIds s) :=
            s4.append_right (runningIds s)
          simpa using s5
        exact (h2.trans h3.symm).nodup_iff.mpr hn
      · intro kv hkv
        have hset : setEntry r.2.1.id
            { item := { r.2.1 with agentID := r.2.2.agentID }, doneClosed := false,
              error := none, deadline := now + s.extension } s.running =
            s.running ++ [(r.2.1.id,
              { item := { r.2.1 with agentID := r.2.2.agentID }, doneClosed := false,
                error := none, deadline := now + s.extension })] :=
          setEntry_fresh _ _ s.running hnotrun
        simp only [hset] at hkv
        rcases List.mem_append.mp hkv with hin | hin
        · exact hk kv hin
        · simp only [List.mem_singleton] at hin
          subst hin
          rfl

theorem queueInv_process (now : Nat) (s : FifoState) (h : QueueInv s) :
    QueueInv (process now s).1 := by
  unfold process
  by_cases hp : s.paused
  · simp only [hp, if_true]
    exact h
  · simp only [hp, if_false]
    exact queueInv_matchLoopF now _ _ []
      (queueInv_filterWaiting _ (queueInv_resubmit now s h))

theorem queueInv_stepEv (e : QEvent) (s : FifoState) (hg : GoodEvent e s) (h : QueueInv s) :
    QueueInv (stepEv e s) := by
  cases e with
  | pushEv t => exact queueInv_push t s hg h
  | pushAtOnceEv ts => exact queueInv_pushAtOnce ts s hg.1 hg.2 h
  | pollEv w => exact h
  | doneEv id st => exact queueInv_finishedRun st none [id] s h
  | errorEv id e2 => exact queueInv_finishedRun StatusValue.failure e2 [id] s h
  | errorAtOnceEv ids e2 => exact queueInv_finishedRun StatusValue.failure e2 ids s h
  | evictEv id => exact queueInv_evictAtOnce [id] s h
  | evictAtOnceEv ids => exact queueInv_evictAtOnce ids s h
  | extendEv now id => exact queueInv_extendOp now id s h
  | pauseEv => exact h
  | resumeEv => exact h
  | kickEv a => exact h
  | processEv now => exact queueInv_process now s h

theorem queueInv_reachable {s : FifoState} (h : ReachableFresh s) : QueueInv s := by
  induction h with
  | init =>
    constructor
    · simp [allIds, pendingIds, waitingIds, runningIds, newQueue]
    · intro kv hkv
      simp [newQueue] at hkv
  | next hr hg ih => exact queueInv_stepEv _ _ hg ih

/-- C1 (amended): in every state reachable from the empty queue by
Push, PushAtOnce, Poll, Done, Error, ErrorAtOnce, Evict, EvictAtOnce,
Extend, Pause, Resume, KickAgentWorkers and dispatcher passes, in which
every pushed task id was fresh at the time of its push (the globally
unique ids of the data model), no task id appears in more than one of
the pending list, the waitingOnDeps list and the running map. -/
theorem no_double_home_of_reachable (s : FifoState) (h : ReachableFresh s) :
    NoDoubleHome s := by
  obtain ⟨hn, _⟩ := queueInv_reachable h
  have hn2 : ((pendingIds s ++ waitingIds s) ++ runningIds s).Nodup := hn
  have hd := List.disjoint_of_nodup_append hn2
  refine ⟨?_, ?_, ?_⟩
  · exact List.disjoint_of_nodup_append hn2.of_append_left
  · intro a ha hb
    exact hd (List.mem_append_left _ ha) hb
  · intro a ha hb
    exact hd (List.mem_append_right _ ha) hb

/-- Witness for the amended C1 theorem at a concrete two-step trace. -/
theorem no_double_home_witness :
    NoDoubleHome (stepEv (QEvent.pushEv taskA) newQueue) :=
  no_double_home_of_reachable _
    (ReachableFresh.next ReachableFresh.init (by
      show taskA.id ∉ allIds newQueue
      simp [allIds, pendingIds, waitingIds, runningIds, newQueue]))

/-- C1 counterexample to the claim as stated: push a task, let a worker
poll and a dispatcher pass assign it, then push a second task carrying
the same id.  The resulting state is reachable by the listed events from
the empty queue, yet the id sits in `pending` and in `running` at the
same time. -/
theorem double_home_cex :
    idA ∈ pendingIds (execTrace [QEvent.pushEv taskA, QEvent.pollEv worker1,
        QEvent.processEv 0, QEvent.pushEv taskA]) ∧
    idA ∈ runningIds (execTrace [QEvent.pushEv taskA, QEvent.pollEv worker1,
        QEvent.processEv 0, QEvent.pushEv taskA]) := by
  constructor <;> decide

/-- C2 counterexample: the claim says a dispatcher pass while paused
still performs the lease-expiry sweep.  In the code `process` returns
before the sweep when `paused` is set: on a paused queue holding an
entry whose deadline 0 has passed at time 5, the pass leaves the entry
in `running` and moves nothing to `pending`. -/
theorem process_paused_cex :
    5 > entryA.deadline ∧
    (process 5 pausedState).1.running = [(idA, entryA)] ∧
    (process 5 pausedState).1.pending = [] ∧
    (process 5 pausedState).2 = [] := by
  refine ⟨by decide, rfl, rfl, rfl⟩

/-- C2 (amended): while the paused flag is true a dispatcher pass does
nothing at all — it returns the state unchanged and delivers no task;
in particular even the lease-expiry sweep is skipped, and no task is
ever assigned to a worker while paused. -/
theorem process_paused_noop (now : Nat) (s : FifoState) (h : s.paused = true) :
    process now s = (s, []) := by
  unfold process
  rw [h]
  rfl

/-- Witness for the amended C2 theorem at the concrete paused state. -/
theorem process_paused_noop_witness : process 5 pausedState = (pausedState, []) :=
  process_paused_noop 5 pausedState rfl

/-- C9: Pause then Resume leaves the pending list, the waitingOnDeps
list and the running map exactly as they were, and both operations are
idempotent on the queue state (the dispatcher kick of Resume is the
separate `process` transition and touches nothing by itself). -/
theorem pause_resume_spec (s : FifoState) :
    (resume (pause s)).pending = s.pending ∧
    (resume (pause s)).waitingOnDeps = s.waitingOnDeps ∧
    (resume (pause s)).running = s.running ∧
    pause (pause s) = pause s ∧
    resume (resume s) = resume s :=
  ⟨rfl, rfl, rfl, rfl, rfl⟩

/-- C7 counterexample: the claim says a cancelled blocked Wait returns
the context error.  In the code the cancellation arm of the select has
no return statement, so control falls through to `return nil`: the call
returns nil, not the context error. -/
theorem wait_cancel_cex :
    waitResolve entryA (WaitEvent.ctxCancelled ctxErrC) = none ∧
    (none : Option GoError) ≠ some ctxErrC := by
  exact ⟨rfl, by decide⟩

/-- C7 (amended): on context cancellation a blocked Poll returns the
context error and deletes its worker from the workers set before
returning; a blocked Wait, by contrast, swallows the cancellation and
returns nil. -/
theorem cancel_semantics (s : FifoState) (w : Worker) (ctxE : GoError) (e : Entry) :
    pollResolve s w (PollEvent.ctxCancelled ctxE) =
      ({ s with workers := removeWorker w.wid s.workers }, none, some ctxE) ∧
    (∀ w2 ∈ (pollResolve s w (PollEvent.ctxCancelled ctxE)).1.workers, w2.wid ≠ w.wid) ∧
    waitResolve e (WaitEvent.ctxCancelled ctxE) = none := by
  refine ⟨rfl, ?_, rfl⟩
  intro w2 h2
  simp only [pollResolve, removeWorker, List.mem_filter, Bool.not_eq_eq_eq_not,
    Bool.not_true, beq_eq_false_iff_ne] at h2
  exact h2.2

theorem lookupEntry_map_none (id : String) (f : String × Entry → Entry)
    (m : List (String × Entry)) (h : lookupEntry id m = none) :
    lookupEntry id (m.map (fun kv => (kv.1, f kv))) = none := by
  induction m with
  | nil => rfl
  | cons kv rest ih =>
    simp only [lookupEntry, List.find?] at h ⊢
    cases hc : (kv.1 == id) with
    | true => rw [hc] at h; simp at h
    | false =>
      rw [hc] at h
      exact ih h

theorem lookupEntry_erase_map (id : String) (f : String × Entry → Entry)
    (m : List (String × Entry)) :
    lookupEntry id ((eraseEntry id m).map (fun kv => (kv.1, f kv))) = none := by
  induction m with
  | nil => rfl
  | cons kv rest ih =>
    simp only [eraseEntry, List.filter]
    cases hc : (kv.1 == id) with
    | true => simp [eraseEntry] at ih ⊢; exact ih
    | false =>
      simp only [Bool.not_false, List.map_cons, lookupEntry, List.find?, hc]
      simp only [lookupEntry, eraseEntry] at ih
      exact ih

/-- C3 (amended): once finished has processed an id (the path of Done,
Error and ErrorAtOnce), the id has no entry left in the running map, so
a Wait issued after the finish (and before the id re-enters running)
returns immediately — but always with nil, never with the recorded
error: the lookup `q.running[id]` fails and Wait falls to `return nil`
without reading the stored error. -/
theorem wait_after_finished (st : StatusValue) (err : Option GoError) (s : FifoState)
    (id : String) :
    lookupEntry id (finished [id] st err s).1.running = none ∧
    waitCall (finished [id] st err s).1 id = WaitOutcome.immediate none := by
  have hrun : lookupEntry id (finished [id] st err s).1.running = none := by
    show lookupEntry id (finishedStep st err s id).1.running = none
    cases hle : lookupEntry id s.running with
    | some e =>
      rw [finishedStep_some st err s id e hle]
      exact lookupEntry_erase_map id _ s.running
    | none =>
      rw [finishedStep_none st err s id hle]
      exact lookupEntry_map_none id _ s.running hle
  refine ⟨hrun, ?_⟩
  unfold waitCall
  rw [hrun]

/-- C3 counterexample: error-finish the running task a with a non-nil
error.  The entry recorded for a carries that error (first conjunct),
yet a Wait issued afterwards returns immediately with nil (second
conjunct), not the recorded error as the claim states. -/
theorem wait_after_error_cex :
    (errorOp idA (some errBoom) s2cex).2.1.map Entry.error = [some errBoom] ∧
    waitCall (errorOp idA (some errBoom) s2cex).1 idA = WaitOutcome.immediate none := by
  constructor <;> decide

/-- C5: in a dispatcher pass the lease-expiry sweep keeps exactly the
running entries whose deadline has not strictly passed, unchanged and
in order; for each expired entry it pushes the entry's task onto the
front of `pending`, removes the binding from `running`, and closes the
entry's done channel; provided every running entry carries a nil error
(true in every reachable state, since entries enter `running` with nil
error and leave it when the error is set), the closed entries still
carry a nil error.  The waiting list is untouched. -/
theorem resubmitExpired_spec (now : Nat) (s : FifoState)
    (herr : ∀ kv ∈ s.running, kv.2.error = none) :
    (resubmitExpiredPipelines now s).1.running
        = s.running.filter (fun kv => !(decide (now > kv.2.deadline))) ∧
    (resubmitExpiredPipelines now s).1.pending
        = ((s.running.filter (fun kv => decide (now > kv.2.deadline))).map
            (fun kv => kv.2.item)).reverse ++ s.pending ∧
    (resubmitExpiredPipelines now s).2
        = (s.running.filter (fun kv => decide (now > kv.2.deadline))).map
            (fun kv => { kv.2 with doneClosed := true }) ∧
    (∀ e ∈ (resubmitExpiredPipelines now s).2, e.doneClosed = true ∧ e.error = none) ∧
    (resubmitExpiredPipelines now s).1.waitingOnDeps = s.waitingOnDeps := by
  refine ⟨sweepRunning_fst now s.running s.pending,
    sweepRunning_pending now s.running s.pending,
    sweepRunning_closed now s.running s.pending, ?_, rfl⟩
  intro e he
  have he2 : e ∈ (s.running.filter (fun kv => decide (now > kv.2.deadline))).map
      (fun kv => { kv.2 with doneClosed := true }) := by
    rw [show (resubmitExpiredPipelines now s).2 = (sweepRunning now s.running s.pending).2.2
      from rfl, sweepRunning_closed now s.running s.pending] at he
    exact he
  simp only [List.mem_map] at he2
  obtain ⟨kv, hkv, rfl⟩ := he2
  exact ⟨rfl, herr kv (List.mem_of_mem_filter hkv)⟩

/-- Witness for C5 at a queue with one expired and one live entry. -/
theorem resubmitExpired_spec_witness :
    (resubmitExpiredPipelines 5 sweepState).1.running = [(idB, entryB)] ∧
    (resubmitExpiredPipelines 5 sweepState).1.pending = [taskA] ∧
    (resubmitExpiredPipelines 5 sweepState).2 = [{ entryA with doneClosed := true }] ∧
    (∀ e ∈ (resubmitExpiredPipelines 5 sweepState).2, e.doneClosed = true ∧ e.error = none) := by
  have h := resubmitExpired_spec 5 sweepState (by decide)
  refine ⟨?_, ?_, ?_, h.2.2.2.1⟩
  · rw [h.1]; rfl
  · rw [h.2.1]; rfl
  · rw [h.2.2.1]; rfl

theorem getStatus_setStatus (id : String) (v : StatusValue) :
    ∀ m : List (String × StatusValue), getStatus id (setStatus id v m) = some v := by
  intro m
  induction m with
  | nil => simp [getStatus, setStatus, List.find?]
  | cons kv rest ih =>
    simp only [setStatus]
    by_cases hc : kv.1 == id
    · simp [hc, getStatus, List.find?]
    · simp only [hc, if_false, Bool.false_eq_true]
      simp only [getStatus, List.find?, hc]
      exact ih

theorem updateTaskDep_mem (id : String) (st : StatusValue) (t : Task)
    (h : id ∈ t.dependencies) :
    getStatus id (updateTaskDep id st t).depStatus = some st := by
  unfold updateTaskDep
  have hany : t.dependencies.any (fun dep => id == dep) = true :=
    List.any_eq_true.mpr ⟨id, h, by simp⟩
  simp only [hany, if_true]
  exact getStatus_setStatus id st t.depStatus

theorem updateTaskDep_not (id : String) (st : StatusValue) (t : Task)
    (h : id ∉ t.dependencies) : updateTaskDep id st t = t := by
  unfold updateTaskDep
  have hany : t.dependencies.any (fun dep => id == dep) = false := by
    apply List.any_eq_false.mpr
    intro dep hdep
    simp only [beq_iff_eq]
    intro heq
    exact h (heq ▸ hdep)
  simp [hany]

theorem removeFromPending_noop (id : String) :
    ∀ l : List Task, id ∉ l.map Task.id → removeFromPending id l = l := by
  intro l
  induction l with
  | nil => intro _; rfl
  | cons t ts ih =>
    intro hnot
    simp only [List.map_cons, List.mem_cons] at hnot
    push_neg at hnot
    simp only [removeFromPending]
    have hne : (t.id == id) = false := by
      simp only [beq_eq_false_iff_ne]
      exact fun hx => hnot.1 hx.symm
    rw [hne]
    simp [ih hnot.2]

theorem finished_single (st : StatusValue) (err : Option GoError) (s : FifoState)
    (id : String) :
    finished [id] st err s =
      ((finishedStep st err s id).1, (finishedStep st err s id).2.toList, none) := by
  simp [finished, finishedRun]

/-- C4: the finish procedure reached from Done, Error and ErrorAtOnce.
For an id with a running entry, the entry gets the error recorded and
its done channel closed (the returned entry), the binding leaves the
running map, and pending is untouched apart from the dependency-status
propagation.  For an id with no running entry, the first matching
pending occurrence is removed; if the id is nowhere, pending is left as
is.  In every case the finished status is written into depStatus[id] of
exactly the tasks of pending, running and waitingOnDeps that list id as
a dependency (that is what `updateDepStatusInQueue` maps over all three
homes), and the call returns nil. -/
theorem finished_spec (st : StatusValue) (err : Option GoError) (s : FifoState)
    (id : String) :
    (∀ e, lookupEntry id s.running = some e →
        finished [id] st err s =
          (updateDepStatusInQueue id st { s with running := eraseEntry id s.running },
           [{ e with error := err, doneClosed := true }], none)) ∧
    (lookupEntry id s.running = none →
        finished [id] st err s =
          (updateDepStatusInQueue id st { s with pending := removeFromPending id s.pending },
           [], none)) ∧
    (id ∉ pendingIds s → removeFromPending id s.pending = s.pending) ∧
    (∀ ids2, (finished ids2 st err s).2.2 = none) ∧
    (∀ t, id ∈ t.dependencies → getStatus id (updateTaskDep id st t).depStatus = some st) ∧
    (∀ t, id ∉ t.dependencies → updateTaskDep id st t = t) := by
  refine ⟨?_, ?_, ?_, fun _ => rfl, fun t ht => updateTaskDep_mem id st t ht,
    fun t ht => updateTaskDep_not id st t ht⟩
  · intro e hle
    rw [finished_single, finishedStep_some st err s id e hle]
    rfl
  · intro hle
    rw [finished_single, finishedStep_none st err s id hle]
    rfl
  · intro hnot
    exact removeFromPending_noop id s.pending hnot

/-- Witness for C4: finishing the running task a of `runState` removes
its binding, returns its entry closed with the recorded (nil) error,
returns nil, and writes success into the depStatus of the pending
dependant. -/
theorem finished_spec_witness :
    finished [idA] StatusValue.success none runState =
      (updateDepStatusInQueue idA StatusValue.success
        { runState with running := eraseEntry idA runState.running },
       [{ entryA with error := none, doneClosed := true }], none) ∧
    (finished [idA] StatusValue.success none runState).1.pending =
      [{ taskDepB with depStatus := [(idA, StatusValue.success)] }] ∧
    (finished [idA] StatusValue.success none runState).1.running = [] := by
  have h := (finished_spec StatusValue.success none runState idA).1 entryA rfl
  refine ⟨h, ?_, ?_⟩ <;> rw [h] <;> rfl

/-- C6 counterexample: a task whose only listed dependency is its own
id IS gated by the code.  `depsInQueue` scans all of `pending` with no
self-exclusion, and `filterWaiting` runs the test while the task itself
still sits in `pending`, so the self-match fires: the dispatcher moves
the task to `waitingOnDeps`, contradicting the claim that such a task
is not gated. -/
theorem depsInQueue_self_cex :
    depsInQueue [taskSelf] [] taskSelf = true ∧
    (filterWaiting selfState).waitingOnDeps = [taskSelf] ∧
    (filterWaiting selfState).pending = [] := by
  refine ⟨rfl, by decide, by decide⟩

/-- C6 (amended): `depsInQueue(t)` returns true iff some element of the
dependencies of `t` occurs as the id of a task in `pending` — the task
itself included, there is no self-exclusion — or as a key of the
running map.  In particular a pending task whose only listed dependency
is its own id is gated. -/
theorem depsInQueue_iff (pending : List Task) (running : List (String × Entry)) (t : Task) :
    depsInQueue pending running t = true ↔
      (∃ p ∈ pending, p.id ∈ t.dependencies) ∨ (∃ kv ∈ running, kv.1 ∈ t.dependencies) := by
  simp only [depsInQueue, Bool.or_eq_true, List.any_eq_true, beq_iff_eq]
  constructor
  · rintro (⟨p, hp, dep, hdep, heq⟩ | ⟨kv, hkv, dep, hdep, heq⟩)
    · exact Or.inl ⟨p, hp, heq ▸ hdep⟩
    · exact Or.inr ⟨kv, hkv, heq ▸ hdep⟩
  · rintro (⟨p, hp, hdep⟩ | ⟨kv, hkv, hdep⟩)
    · exact Or.inl ⟨p, hp, p.id, hdep, rfl⟩
    · exact Or.inr ⟨kv, hkv, kv.1, hdep, rfl⟩

/-- Witness for the amended C7 theorem at concrete inputs. -/
theorem cancel_semantics_witness :
    pollResolve sweepState worker1 (PollEvent.ctxCancelled ctxErrC) =
      ({ sweepState with workers := removeWorker worker1.wid sweepState.workers },
       none, some ctxErrC) ∧
    waitResolve entryA (WaitEvent.ctxCancelled ctxErrC) = none := by
  have h := cancel_semantics sweepState worker1 ctxErrC entryA
  exact ⟨h.1, h.2.2⟩

/-- Witness for the amended C6 theorem: the self-dependent pending task
is gated through the left disjunct, instantiated by itself. -/
theorem depsInQueue_iff_witness : depsInQueue [taskSelf] [] taskSelf = true :=
  (depsInQueue_iff [taskSelf] [] taskSelf).mpr
    (Or.inl ⟨taskSelf, by simp, by decide⟩)

/-- The inner scan of EvictAtOnce misses exactly when no pending task
carries the id. -/
theorem removeFirstById_none_iff (id : String) (l : List Task) :
    removeFirstById id l = none ↔ ∀ t ∈ l, t.id ≠ id := by
  induction l with
  | nil => simp [removeFirstById]
  | cons t ts ih =>
    simp only [removeFirstById, List.mem_cons]
    by_cases hc : t.id == id
    · simp only [hc, if_true]
      constructor
      · intro h; cases h
      · intro h
        exact absurd (beq_iff_eq.mp hc) (h t (Or.inl rfl))
    · simp only [hc, Bool.false_eq_true, if_false, Option.map_eq_none']
      rw [ih]
      constructor
      · intro h t2 ht2
        rcases ht2 with h2 | h2
        · subst h2
          exact beq_eq_false_iff_ne.mp (by simpa using hc)
        · exact h t2 h2
      · intro h t2 ht2
        exact h t2 (Or.inr ht2)

theorem evictAtOnce_frame (s : FifoState) : ∀ ids : List String,
    (evictAtOnce ids s).1.running = s.running ∧
    (evictAtOnce ids s).1.waitingOnDeps = s.waitingOnDeps := by
  intro ids
  induction ids with
  | nil => exact ⟨rfl, rfl⟩
  | cons i rest ih =>
    simp only [evictAtOnce]
    cases hr : removeFirstById i s.pending with
    | some p2 => exact ⟨rfl, rfl⟩
    | none => exact ih

theorem evictAtOnce_notFound (s : FifoState) : ∀ ids : List String,
    (∀ id ∈ ids, removeFirstById id s.pending = none) →
    evictAtOnce ids s = (s, some GoError.notFound) := by
  intro ids
  induction ids with
  | nil => intro _; rfl
  | cons i rest ih =>
    intro hall
    have hi := hall i (List.mem_cons_self i rest)
    simp only [evictAtOnce, hi]
    exact ih (fun id hid => hall id (List.mem_cons_of_mem i hid))

theorem evictAtOnce_firstHit (s : FifoState) (id : String) (p2 : List Task)
    (hhit : removeFirstById id s.pending = some p2) :
    ∀ ids1 : List String, (∀ i ∈ ids1, removeFirstById i s.pending = none) →
    ∀ ids2 : List String, evictAtOnce (ids1 ++ id :: ids2) s = ({ s with pending := p2 }, none) := by
  intro ids1
  induction ids1 with
  | nil =>
    intro _ ids2
    simp only [List.nil_append, evictAtOnce, hhit]
  | cons j tl ih =>
    intro hmiss ids2
    have hj := hmiss j (List.mem_cons_self j tl)
    simp only [List.cons_append, evictAtOnce, hj]
    exact ih (fun i hi => hmiss i (List.mem_cons_of_mem j hi)) ids2

/-- C8: EvictAtOnce tries the ids in list order; the first id that
matches a pending task removes exactly the first matching pending
occurrence and the call returns nil at once, without attempting the
remaining ids; if no id matches any pending task it returns NotFound
and changes nothing; in every case the running map and the
waitingOnDeps list are untouched, so an id that is only running or only
waiting on deps matches no pending task and yields NotFound. -/
theorem evictAtOnce_spec (s : FifoState) (ids : List String) :
    (evictAtOnce ids s).1.running = s.running ∧
    (evictAtOnce ids s).1.waitingOnDeps = s.waitingOnDeps ∧
    ((∀ id ∈ ids, removeFirstById id s.pending = none) →
        evictAtOnce ids s = (s, some GoError.notFound)) ∧
    (∀ ids1 id ids2 p2, ids = ids1 ++ id :: ids2 →
        (∀ i ∈ ids1, removeFirstById i s.pending = none) →
        removeFirstById id s.pending = some p2 →
        evictAtOnce ids s = ({ s with pending := p2 }, none)) ∧
    (∀ id, removeFirstById id s.pending = none ↔ ∀ t ∈ s.pending, t.id ≠ id) := by
  refine ⟨(evictAtOnce_frame s ids).1, (evictAtOnce_frame s ids).2,
    evictAtOnce_notFound s ids, ?_, fun id => removeFirstById_none_iff id s.pending⟩
  intro ids1 id ids2 p2 heq hmiss hhit
  subst heq
  exact evictAtOnce_firstHit s id p2 hhit ids1 hmiss ids2

/-- Witness for C8: on a queue with pending a, b, b the id list [x, b]
misses with x, hits the first b, removes only it, and returns nil with
running untouched. -/
theorem evictAtOnce_spec_witness :
    evictAtOnce [idX, idB] evictState = ({ evictState with pending := [taskA, taskBdup] }, none) ∧
    (evictAtOnce [idX, idB] evictState).1.running = evictState.running := by
  have h := evictAtOnce_spec evictState [idX, idB]
  exact ⟨h.2.2.2.1 [idX] idB [] [taskA, taskBdup] rfl (by decide) (by decide), h.1⟩

/-- C10: finishing an id that is not running (in particular one sitting
in `waitingOnDeps`) via Done or Error leaves the membership and order
of the waitingOnDeps list unchanged — the list is mapped through the
dependency-status update only, the finished task itself is not removed,
the id sequence is identical, and every waiting task that does not list
the id as a dependency is kept exactly as it was. -/
theorem waiting_frame_on_finish (s : FifoState) (id : String) (st : StatusValue)
    (err : Option GoError) (_hw : id ∈ waitingIds s)
    (hrun : lookupEntry id s.running = none) :
    (doneOp id st s).1.waitingOnDeps = s.waitingOnDeps.map (updateTaskDep id st) ∧
    (errorOp id err s).1.waitingOnDeps
      = s.waitingOnDeps.map (updateTaskDep id StatusValue.failure) ∧
    (doneOp id st s).1.waitingOnDeps.map Task.id = s.waitingOnDeps.map Task.id ∧
    (errorOp id err s).1.waitingOnDeps.map Task.id = s.waitingOnDeps.map Task.id ∧
    (∀ t ∈ s.waitingOnDeps, id ∉ t.dependencies →
        t ∈ (doneOp id st s).1.waitingOnDeps ∧ t ∈ (errorOp id err s).1.waitingOnDeps) := by
  have hdone : (doneOp id st s).1.waitingOnDeps
      = s.waitingOnDeps.map (updateTaskDep id st) := by
    show (finished [id] st none s).1.waitingOnDeps = _
    rw [finished_single, finishedStep_none st none s id hrun]
    rfl
  have herr : (errorOp id err s).1.waitingOnDeps
      = s.waitingOnDeps.map (updateTaskDep id StatusValue.failure) := by
    show (finished [id] StatusValue.failure err s).1.waitingOnDeps = _
    rw [finished_single, finishedStep_none StatusValue.failure err s id hrun]
    rfl
  refine ⟨hdone, herr, ?_, ?_, ?_⟩
  · rw [hdone]
    exact map_id_updateTaskDep id st s.waitingOnDeps
  · rw [herr]
    exact map_id_updateTaskDep id StatusValue.failure s.waitingOnDeps
  · intro t ht hdep
    constructor
    · rw [hdone]
      have hmem := List.mem_map_of_mem (updateTaskDep id st) ht
      rwa [updateTaskDep_not id st t hdep] at hmem
    · rw [herr]
      have hmem := List.mem_map_of_mem (updateTaskDep id StatusValue.failure) ht
      rwa [updateTaskDep_not id StatusValue.failure t hdep] at hmem

/-- Witness for C10: Done on the waiting task a of `waitState` keeps
both waiting tasks in place and in order; only the dependant of a gets
its depStatus updated. -/
theorem waiting_frame_witness :
    (doneOp idA StatusValue.success waitState).1.waitingOnDeps
      = [taskA, { taskDepB with depStatus := [(idA, StatusValue.success)] }] ∧
    (doneOp idA StatusValue.success waitState).1.waitingOnDeps.map Task.id = [idA, idB] := by
  have h := waiting_frame_on_finish waitState idA StatusValue.success none (by decide) rfl
  constructor
  · rw [h.1]
    rfl
  · rw [h.2.2.1]
    rfl

end Woodpecker
